import Mathlib

/-!
Shallow embedding of the opencode-dotenv plugin (src/load-dotenv.ts).

The module under verification resolves layered `.env` files:

* `loadDotEnvFiles basePath options` computes the four candidate paths
  `.env.<env>.local`, `.env.<env>`, `.env.local`, `.env` under `basePath`,
  merges existing files non-destructively in that order (first-wins),
  logs parse errors other than `MISSING_ENV_FILE`, and — when
  `options.overload` is true — additionally merges the same files
  destructively in reverse order into a fresh mapping which is then
  copied over the primary result.
* `LoadDotEnv` exposes a `shell.env` hook that resolves the files for the
  effective working directory and writes each loaded key into the host's
  output environment only when absent, finally defaulting `NODE_ENV`.

JavaScript objects (`Record<string, string>`) are embedded as association
lists with first-occurrence lookup and update-or-append assignment; the
external dotenvx `config` collaborator and the filesystem are embedded as
a function from path to an optional file content (the parsed entries
together with an optional error code; `none` = the file does not exist,
which also covers a missing or unreadable base directory).  `fileExists`
swallows filesystem errors into `false` and `config` reports errors as a
value, so the embedding is total exactly as the source never throws.
-/

/-- A JavaScript `Record<string, string>`: an association list of
key/value pairs, unique keys in any object that JavaScript can build. -/
abbrev EnvMap := List (String × String)

namespace EnvMap

/-- Property read `obj[k]`: the value at the first pair whose key is `k`. -/
def lookup : EnvMap → String → Option String
  | [], _ => none
  | kv :: rest, k => if kv.1 = k then some kv.2 else lookup rest k

/-- The `key in obj` test. -/
def contains (m : EnvMap) (k : String) : Bool :=
  (lookup m k).isSome

/-- Property write `obj[k] = v`: update the existing slot, else append. -/
def set : EnvMap → String → String → EnvMap
  | [], k, v => [(k, v)]
  | kv :: rest, k, v => if kv.1 = k then (k, v) :: rest else kv :: set rest k v

/-- The keys of the object, in slot order. -/
def keys (m : EnvMap) : List String :=
  m.map Prod.fst

/-- Unique keys: every object reachable from JavaScript satisfies this. -/
def NodupKeys (m : EnvMap) : Prop :=
  m.keys.Nodup

end EnvMap

/-- What the dotenvx `config` collaborator finds in one file: the key/value
entries it parses (and decrypts/expands) plus an optional error code. -/
structure FileContent where
  entries : EnvMap
  err : Option String
deriving DecidableEq

/-- The filesystem as seen through `fileExists` and `config`: `none` means
the path does not exist (also the case when the base directory is missing
or unreadable). -/
abbrev FS := String → Option FileContent

/-- Embedding of `fileExists`: `fs/promises.access` succeeded.  The
source's `try/catch` makes this total. -/
def fileExists (fs : FS) (p : String) : Bool :=
  (fs p).isSome

/-- One entry applied to the target mapping by dotenvx `config`:
destructive (`overload = true`) always assigns, non-destructive skips a
key the mapping already has. -/
def applyEntry (overload : Bool) (m : EnvMap) (kv : String × String) : EnvMap :=
  if overload then EnvMap.set m kv.1 kv.2
  else if EnvMap.contains m kv.1 then m else EnvMap.set m kv.1 kv.2

/-- All of a file's entries applied in order to the target mapping. -/
def mergeEntries (overload : Bool) (m : EnvMap) (es : EnvMap) : EnvMap :=
  es.foldl (applyEntry overload) m

/-- What dotenvx `config` returns: the (mutated) target mapping and an
optional error. -/
structure ConfigResult where
  env : EnvMap
  error : Option String
deriving DecidableEq

/-- Embedding of the dotenvx `config({path, processEnv, quiet, overload})`
call: a missing file reports code `MISSING_ENV_FILE`; an existing file's
entries are merged into `processEnv` in the requested mode and its error,
if any, is reported alongside. -/
def config (fs : FS) (path : String) (processEnv : EnvMap) (overload : Bool) : ConfigResult :=
  match fs path with
  | none => ⟨processEnv, some "MISSING_ENV_FILE"⟩
  | some fc => ⟨mergeEntries overload processEnv fc.entries, fc.err⟩

/-- Embedding of `LoadDotEnvOptions`; `none` is an omitted field. -/
structure LoadDotEnvOptions where
  nodeEnv : Option String := none
  overload : Option Bool := none
deriving DecidableEq

/-- JavaScript `a || b` on an optional string: `undefined` and `""` are
falsy. -/
def jsOr (a : Option String) (b : String) : String :=
  match a with
  | some s => if s = "" then b else s
  | none => b

/-- The effective runtime environment name:
`options.nodeEnv || process.env.NODE_ENV || "development"`. -/
def effectiveNodeEnv (optNodeEnv ambient : Option String) : String :=
  jsOr optNodeEnv (jsOr ambient "development")

/-- The four candidate paths, highest precedence first (source lines
26–31). -/
def candidateFiles (basePath nodeEnv : String) : List String :=
  [basePath ++ "/.env." ++ nodeEnv ++ ".local",
   basePath ++ "/.env." ++ nodeEnv,
   basePath ++ "/.env.local",
   basePath ++ "/.env"]

/-- One iteration of the forward (first-wins) loop: an existing file is
merged non-destructively and any error other than `MISSING_ENV_FILE` is
logged as the pair (file, error code), mirroring `console.error`. -/
def forwardStep (fs : FS) (acc : EnvMap × List (String × String)) (file : String) :
    EnvMap × List (String × String) :=
  if fileExists fs file then
    let r := config fs file acc.1 false
    match r.error with
    | some e => if e = "MISSING_ENV_FILE" then (r.env, acc.2) else (r.env, acc.2 ++ [(file, e)])
    | none => (r.env, acc.2)
  else acc

/-- The forward pass over a candidate list, starting from the empty
`processEnv` and an empty log. -/
def forwardPass (fs : FS) (files : List String) : EnvMap × List (String × String) :=
  files.foldl (forwardStep fs) ([], [])

/-- One iteration of the overload loop: an existing file is merged
destructively; its result (and error) is ignored. -/
def overloadStep (fs : FS) (m : EnvMap) (file : String) : EnvMap :=
  if fileExists fs file then (config fs file m true).env else m

/-- The overload pass: the same candidates in reverse order, merged
destructively into a fresh mapping. -/
def overloadPass (fs : FS) (files : List String) : EnvMap :=
  files.reverse.foldl (overloadStep fs) []

/-- What `loadDotEnvFiles` produces: the returned mapping and the list of
(file, error code) pairs it logged. -/
structure LoadResult where
  env : EnvMap
  log : List (String × String)
deriving DecidableEq

/-- Embedding of `loadDotEnvFiles(basePath, options)`.  `ambient` is
`process.env.NODE_ENV`. -/
def loadDotEnvFiles (fs : FS) (ambient : Option String) (basePath : String)
    (options : LoadDotEnvOptions) : LoadResult :=
  let nodeEnv := effectiveNodeEnv options.nodeEnv ambient
  let files := candidateFiles basePath nodeEnv
  let fwd := forwardPass fs files
  let env :=
    if options.overload.getD false then
      (overloadPass fs files).foldl (fun m kv => EnvMap.set m kv.1 kv.2) fwd.1
    else fwd.1
  ⟨env, fwd.2⟩

/-- The hook's merge loop (source lines 76–80): each loaded key is written
into the output environment only when not already present. -/
def mergeLoaded (outEnv loaded : EnvMap) : EnvMap :=
  loaded.foldl (fun m kv => if EnvMap.contains m kv.1 then m else EnvMap.set m kv.1 kv.2) outEnv

/-- The hook's final step (source lines 82–84): default `NODE_ENV` when
absent. -/
def setDefaultNodeEnv (env : EnvMap) (nodeEnv : String) : EnvMap :=
  if EnvMap.contains env "NODE_ENV" then env else EnvMap.set env "NODE_ENV" nodeEnv

/-- The hook's input: `{ cwd?: string }`. -/
structure ShellEnvInput where
  cwd : Option String := none
deriving DecidableEq

/-- The hook's output: `{ env: Record<string, string> }`. -/
structure ShellEnvOutput where
  env : EnvMap
deriving DecidableEq

/-- Embedding of the `shell.env` hook produced by `LoadDotEnv`:
`basePath = input.cwd ?? directory`, the ambient environment name is
resolved, the files are loaded with `{ nodeEnv }` (no `overload` key),
the loaded keys are merged non-destructively and `NODE_ENV` is
defaulted. -/
def shellEnvHook (fs : FS) (ambient : Option String) (directory : String)
    (input : ShellEnvInput) (output : ShellEnvOutput) : ShellEnvOutput :=
  let basePath := input.cwd.getD directory
  let nodeEnv := jsOr ambient "development"
  let loaded := (loadDotEnvFiles fs ambient basePath ⟨some nodeEnv, none⟩).env
  ⟨setDefaultNodeEnv (mergeLoaded output.env loaded) nodeEnv⟩

/-- Does the file at `file` exist and define the key `k`? -/
def definesKey (fs : FS) (file k : String) : Bool :=
  match fs file with
  | some fc => (EnvMap.lookup fc.entries k).isSome
  | none => false

/-- The value a file's entries give a key on a non-destructive merge into
a mapping that lacks the key: the first binding. -/
def fileVal (fs : FS) (file k : String) : Option String :=
  (fs file).bind fun fc => EnvMap.lookup fc.entries k

/-- The value a file's entries give a key on a destructive merge: the
last binding. -/
def fileValLast (fs : FS) (file k : String) : Option String :=
  (fs file).bind fun fc => EnvMap.lookup fc.entries.reverse k

/-- A filesystem's observable content with error reports erased: two
filesystems agreeing under this parse the same keys everywhere and can
differ only in the errors they report. -/
def entriesOnly (c : Option FileContent) : Option EnvMap :=
  c.map FileContent.entries

/-- A directory with no candidate files at all. -/
def fsEmpty : FS := fun _ => none

/-- Concrete directory: `.env.development` and `.env` overlap on `K`. -/
def fsTwoFiles : FS := fun p =>
  if p = "b/.env.development" then some ⟨[("K", "hi")], none⟩
  else if p = "b/.env" then some ⟨[("K", "lo"), ("O", "x")], none⟩
  else none

/-- Concrete directory: `.env.development.local` and `.env` overlap on
`K`. -/
def fsTopAndBottom : FS := fun p =>
  if p = "b/.env.development.local" then some ⟨[("K", "top")], none⟩
  else if p = "b/.env" then some ⟨[("K", "lo")], none⟩
  else none

/-- Concrete directory: a single `.env` whose parse reports an error. -/
def fsBadFile : FS := fun p =>
  if p = "b/.env" then some ⟨[("A", "1")], some "DECRYPT_FAILED"⟩ else none

/-- The same directory as `fsBadFile` with the error report erased. -/
def fsBadFileHealed : FS := fun p =>
  if p = "b/.env" then some ⟨[("A", "1")], none⟩ else none

/-- Concrete directory: a single `.env` defining `FOO` and `BAR`. -/
def fsFooBar : FS := fun p =>
  if p = "b/.env" then some ⟨[("FOO", "loaded"), ("BAR", "baz")], none⟩ else none

namespace EnvMap

theorem lookup_set_self (m : EnvMap) (k v : String) :
    lookup (set m k v) k = some v := by
  induction m with
  | nil => simp [set, lookup]
  | cons kv rest ih =>
    by_cases h : kv.1 = k
    · simp [set, h, lookup]
    · simp [set, h, lookup, ih]

theorem lookup_set_ne (m : EnvMap) (k v k' : String) (h : k' ≠ k) :
    lookup (set m k v) k' = lookup m k' := by
  have hne : ¬ (k = k') := fun hh => h hh.symm
  induction m with
  | nil => simp [set, lookup, hne]
  | cons kv rest ih =>
    by_cases hk : kv.1 = k
    · simp [set, hk, lookup, hne]
    · by_cases hk2 : kv.1 = k'
      · simp [set, hk, lookup, hk2, h]
      · simp [set, hk, lookup, hk2, ih]

theorem lookup_append (l1 l2 : EnvMap) (k : String) :
    lookup (l1 ++ l2) k =
      match lookup l1 k with
      | some v => some v
      | none => lookup l2 k := by
  induction l1 with
  | nil => simp [lookup]
  | cons a l ih =>
    by_cases ha : a.1 = k
    · simp [lookup, ha]
    · simp [lookup, ha, ih]

theorem contains_eq_true_iff (m : EnvMap) (k : String) :
    contains m k = true ↔ (lookup m k).isSome := by
  simp [contains]

theorem lookup_eq_none_of_contains_eq_false (m : EnvMap) (k : String)
    (h : contains m k = false) : lookup m k = none := by
  simp [contains] at h
  exact Option.eq_none_iff_forall_not_mem.mpr (by
    intro v hv
    simp [h] at hv)

theorem set_eq_append_of_contains_eq_false (m : EnvMap) (k v : String)
    (h : contains m k = false) : set m k v = m ++ [(k, v)] := by
  induction m with
  | nil => simp [set]
  | cons kv rest ih =>
    by_cases hk : kv.1 = k
    · exfalso
      simp [contains, lookup, hk] at h
    · simp [contains, lookup, hk] at h
      simp [set, hk, ih (by simp [contains, h])]

theorem mem_keys_iff_lookup_isSome (m : EnvMap) (k : String) :
    k ∈ keys m ↔ (lookup m k).isSome := by
  induction m with
  | nil => simp [keys, lookup]
  | cons kv rest ih =>
    by_cases hk : kv.1 = k
    · simp [keys, lookup, hk]
    · have hne : ¬ (k = kv.1) := fun hh => hk hh.symm
      have hkeys : keys (kv :: rest) = kv.1 :: keys rest := rfl
      rw [hkeys]
      simp only [List.mem_cons, lookup, if_neg hk]
      constructor
      · intro hmem
        rcases hmem with h1 | h2
        · exact absurd h1 hne
        · exact ih.mp h2
      · intro hs
        exact Or.inr (ih.mpr hs)

theorem keys_set (m : EnvMap) (k v : String) :
    keys (set m k v) = if (lookup m k).isSome then keys m else keys m ++ [k] := by
  induction m with
  | nil => simp [set, keys, lookup]
  | cons kv rest ih =>
    by_cases hk : kv.1 = k
    · simp [set, keys, lookup, hk]
    · by_cases hs : (lookup rest k).isSome
      · simp [set, keys, lookup, hk, hs] at ih ⊢
        simpa [keys] using ih
      · simp [set, keys, lookup, hk, hs] at ih ⊢
        simpa [keys] using ih

theorem nodupKeys_set (m : EnvMap) (k v : String) (h : NodupKeys m) :
    NodupKeys (set m k v) := by
  unfold NodupKeys
  rw [keys_set]
  by_cases hs : (lookup m k).isSome
  · simpa [hs] using h
  · have hk : k ∉ keys m := by
      rw [mem_keys_iff_lookup_isSome]
      simp_all
    simp [hs]
    exact List.Nodup.append h (by simp) (by simp [List.disjoint_left, hk])

theorem lookup_eq_none_of_not_mem_keys (m : EnvMap) (k : String)
    (h : k ∉ keys m) : lookup m k = none := by
  cases hs : lookup m k with
  | none => rfl
  | some v =>
    exact absurd ((mem_keys_iff_lookup_isSome m k).mpr (by simp [hs])) h

theorem lookup_reverse_of_nodup (m : EnvMap) (k : String) (h : NodupKeys m) :
    lookup m.reverse k = lookup m k := by
  induction m with
  | nil => rfl
  | cons kv rest ih =>
    have h' : (kv.1 :: keys rest).Nodup := h
    have hk1 : kv.1 ∉ keys rest := (List.nodup_cons.mp h').1
    have hrest : NodupKeys rest := (List.nodup_cons.mp h').2
    rw [List.reverse_cons, lookup_append, ih hrest]
    by_cases hk : kv.1 = k
    · have hnone : lookup rest k = none :=
        lookup_eq_none_of_not_mem_keys rest k (hk ▸ hk1)
      simp [hnone, lookup, hk]
    · cases hs : lookup rest k with
      | none => simp [lookup, hk, hs]
      | some v => simp [lookup, hk, hs]

end EnvMap

/-- Non-destructive merge: a key the target already has keeps its value;
otherwise the file's first binding for the key is taken. -/
theorem lookup_mergeEntries_false (es m : EnvMap) (k : String) :
    EnvMap.lookup (mergeEntries false m es) k =
      if EnvMap.contains m k then EnvMap.lookup m k else EnvMap.lookup es k := by
  induction es generalizing m with
  | nil =>
    by_cases h : EnvMap.contains m k
    · simp [mergeEntries, h]
    · simp [mergeEntries, h, EnvMap.lookup,
        EnvMap.lookup_eq_none_of_contains_eq_false m k (by simpa using h)]
  | cons a es ih =>
    have hstep : mergeEntries false m (a :: es) = mergeEntries false (applyEntry false m a) es := by
      simp [mergeEntries]
    rw [hstep, ih]
    by_cases hc : EnvMap.contains m a.1
    · have happ : applyEntry false m a = m := by
        simp [applyEntry, hc]
      rw [happ]
      by_cases hk : EnvMap.contains m k
      · simp [hk]
      · have hak : ¬ (a.1 = k) := by
          intro hh
          rw [hh] at hc
          exact absurd hc (by simpa using hk)
        simp [hk, EnvMap.lookup, hak]
  
    · have happ : applyEntry false m a = EnvMap.set m a.1 a.2 := by
        simp [applyEntry, hc]
      rw [happ]
      by_cases hak : a.1 = k
      · subst hak
        have hlk : EnvMap.lookup (EnvMap.set m a.1 a.2) a.1 = some a.2 :=
          EnvMap.lookup_set_self m a.1 a.2
        have hc2 : EnvMap.contains (EnvMap.set m a.1 a.2) a.1 = true := by
          simp [EnvMap.contains, hlk]
        have hck : EnvMap.contains m a.1 = false := by simpa using hc
        simp [hc2, hck, hlk, EnvMap.lookup]
      · have hc2 : EnvMap.contains (EnvMap.set m a.1 a.2) k = EnvMap.contains m k := by
          simp [EnvMap.contains, EnvMap.lookup_set_ne m a.1 a.2 k (fun hh => hak hh.symm)]
        rw [hc2, EnvMap.lookup_set_ne m a.1 a.2 k (fun hh => hak hh.symm)]
        by_cases hk : EnvMap.contains m k
        · simp [hk]
        · simp [hk, EnvMap.lookup, hak]

/-- Destructive merge: the file's last binding for the key wins; a key the
file does not bind keeps its target value. -/
theorem lookup_mergeEntries_true (es m : EnvMap) (k : String) :
    EnvMap.lookup (mergeEntries true m es) k =
      match EnvMap.lookup es.reverse k with
      | some v => some v
      | none => EnvMap.lookup m k := by
  induction es generalizing m with
  | nil => simp [mergeEntries, EnvMap.lookup]
  | cons a es ih =>
    have hstep : mergeEntries true m (a :: es) = mergeEntries true (EnvMap.set m a.1 a.2) es := by
      simp [mergeEntries, applyEntry]
    rw [hstep, ih, List.reverse_cons, EnvMap.lookup_append]
    cases hs : EnvMap.lookup es.reverse k with
    | some v => simp
    | none =>
      by_cases hak : a.1 = k
      · simp [EnvMap.lookup, hak, EnvMap.lookup_set_self]
      · simp [EnvMap.lookup, hak,
          EnvMap.lookup_set_ne m a.1 a.2 k (fun hh => hak hh.symm)]

theorem nodupKeys_mergeEntries (ov : Bool) (es m : EnvMap)
    (h : EnvMap.NodupKeys m) : EnvMap.NodupKeys (mergeEntries ov m es) := by
  induction es generalizing m with
  | nil => simpa [mergeEntries] using h
  | cons a es ih =>
    have hstep : mergeEntries ov m (a :: es) = mergeEntries ov (applyEntry ov m a) es := by
      simp [mergeEntries]
    rw [hstep]
    apply ih
    unfold applyEntry
    by_cases hov : ov
    · simpa [hov] using EnvMap.nodupKeys_set m a.1 a.2 h
    · by_cases hc : EnvMap.contains m a.1
      · simpa [hov, hc] using h
      · simpa [hov, hc] using EnvMap.nodupKeys_set m a.1 a.2 h

/-- A non-destructive merge only appends fresh pairs after the target. -/
theorem mergeEntries_false_append (es m : EnvMap) :
    ∃ tail, mergeEntries false m es = m ++ tail := by
  induction es generalizing m with
  | nil => exact ⟨[], by simp [mergeEntries]⟩
  | cons a es ih =>
    have hstep : mergeEntries false m (a :: es) = mergeEntries false (applyEntry false m a) es := by
      simp [mergeEntries]
    by_cases hc : EnvMap.contains m a.1
    · have happ : applyEntry false m a = m := by
        simp [applyEntry, hc]
      rcases ih m with ⟨t, ht⟩
      exact ⟨t, by rw [hstep, happ, ht]⟩
    · have happ : applyEntry false m a = m ++ [(a.1, a.2)] := by
        simp [applyEntry, hc]
        exact EnvMap.set_eq_append_of_contains_eq_false m a.1 a.2 (by simpa using hc)
      rcases ih (m ++ [(a.1, a.2)]) with ⟨t, ht⟩
      exact ⟨(a.1, a.2) :: t, by rw [hstep, happ, ht, List.append_assoc]; rfl⟩

theorem EnvMap.lookup_reverse_isSome (m : EnvMap) (k : String) :
    (EnvMap.lookup m.reverse k).isSome = (EnvMap.lookup m k).isSome := by
  have hk : k ∈ EnvMap.keys m.reverse ↔ k ∈ EnvMap.keys m := by
    simp [EnvMap.keys]
  have h1 := EnvMap.mem_keys_iff_lookup_isSome m.reverse k
  have h2 := EnvMap.mem_keys_iff_lookup_isSome m k
  cases hs1 : (EnvMap.lookup m.reverse k).isSome <;>
    cases hs2 : (EnvMap.lookup m k).isSome <;> try rfl
  · exact absurd (h1.mp (hk.mpr (h2.mpr hs2))) (by simp [hs1])
  · exact absurd (h2.mp (hk.mp (h1.mpr hs1))) (by simp [hs2])

theorem find?_append_none {α : Type} (p : α → Bool) (l1 l2 : List α)
    (h : l1.find? p = none) : (l1 ++ l2).find? p = l2.find? p := by
  rw [List.find?_append, h]
  rfl

theorem find?_append_some {α : Type} (p : α → Bool) (l1 l2 : List α) (a : α)
    (h : l1.find? p = some a) : (l1 ++ l2).find? p = some a := by
  rw [List.find?_append, h]
  rfl

theorem forwardStep_env (fs : FS) (acc : EnvMap × List (String × String)) (f : String) :
    (forwardStep fs acc f).1 =
      match fs f with
      | none => acc.1
      | some fc => mergeEntries false acc.1 fc.entries := by
  cases hf : fs f with
  | none => simp [forwardStep, fileExists, hf]
  | some fc =>
    simp only [forwardStep, fileExists, hf, config, Option.isSome_some, if_true]
    cases fc.err with
    | none => rfl
    | some e =>
      by_cases he : e = "MISSING_ENV_FILE" <;> simp [he]

theorem overloadStep_env (fs : FS) (m : EnvMap) (f : String) :
    overloadStep fs m f =
      match fs f with
      | none => m
      | some fc => mergeEntries true m fc.entries := by
  cases hf : fs f with
  | none => simp [overloadStep, fileExists, hf]
  | some fc => simp [overloadStep, fileExists, hf, config]

/-- The forward (first-wins) fold: a key already in the accumulator keeps
its value; otherwise the first existing candidate that defines the key
contributes its first binding. -/
theorem lookup_forwardFold (fs : FS) (files : List String) (k : String) :
    ∀ acc : EnvMap × List (String × String),
      EnvMap.lookup (files.foldl (forwardStep fs) acc).1 k =
        match EnvMap.lookup acc.1 k with
        | some v => some v
        | none => (files.find? (fun f => definesKey fs f k)).bind fun f => fileVal fs f k := by
  induction files with
  | nil =>
    intro acc
    cases hs : EnvMap.lookup acc.1 k <;> simp [hs, List.find?]
  | cons f rest ih =>
    intro acc
    rw [List.foldl_cons, ih]
    cases hf : fs f with
    | none =>
      have hdef : definesKey fs f k = false := by simp [definesKey, hf]
      have henv : (forwardStep fs acc f).1 = acc.1 := by
        rw [forwardStep_env, hf]
      rw [henv]
      cases hs : EnvMap.lookup acc.1 k <;> simp [hs, List.find?, hdef]
    | some fc =>
      have henv : (forwardStep fs acc f).1 = mergeEntries false acc.1 fc.entries := by
        rw [forwardStep_env, hf]
      rw [henv, lookup_mergeEntries_false]
      by_cases hc : EnvMap.contains acc.1 k
      · have hsome : (EnvMap.lookup acc.1 k).isSome := by simpa [EnvMap.contains] using hc
        cases hs : EnvMap.lookup acc.1 k with
        | none => simp [hs] at hsome
        | some v => simp [hc, hs]
      · have hnone : EnvMap.lookup acc.1 k = none :=
          EnvMap.lookup_eq_none_of_contains_eq_false acc.1 k (by simpa using hc)
        cases hes : EnvMap.lookup fc.entries k with
        | some w =>
          have hdef : definesKey fs f k = true := by simp [definesKey, hf, hes]
          simp [hc, hnone, hes, List.find?, hdef, fileVal, hf]
        | none =>
          have hdef : definesKey fs f k = false := by simp [definesKey, hf, hes]
          simp [hc, hnone, hes, List.find?, hdef]

/-- The overload (destructive, reverse-order) fold: the first candidate in
precedence order that exists and defines the key contributes its last
binding; a key no candidate defines keeps its accumulator value. -/
theorem lookup_overloadFold (fs : FS) (files : List String) (k : String) :
    ∀ m : EnvMap,
      EnvMap.lookup (files.foldl (overloadStep fs) m) k =
        match files.reverse.find? (fun f => definesKey fs f k) with
        | some f => fileValLast fs f k
        | none => EnvMap.lookup m k := by
  induction files with
  | nil => intro m; simp [List.find?]
  | cons f rest ih =>
    intro m
    rw [List.foldl_cons, ih, List.reverse_cons]
    cases hfind : rest.reverse.find? (fun f => definesKey fs f k) with
    | some g => rw [find?_append_some _ _ _ _ hfind]
    | none =>
      rw [find?_append_none _ _ _ hfind]
      cases hf : fs f with
      | none =>
        have hdef : definesKey fs f k = false := by simp [definesKey, hf]
        have henv : overloadStep fs m f = m := by rw [overloadStep_env, hf]
        simp [henv, List.find?, hdef]
      | some fc =>
        have henv : overloadStep fs m f = mergeEntries true m fc.entries := by
          rw [overloadStep_env, hf]
        rw [henv, lookup_mergeEntries_true]
        cases hes : EnvMap.lookup fc.entries k with
        | some w =>
          have hdef : definesKey fs f k = true := by simp [definesKey, hf, hes]
          have hrev : (EnvMap.lookup fc.entries.reverse k).isSome = true := by
            rw [EnvMap.lookup_reverse_isSome]
            simp [hes]
          cases hrs : EnvMap.lookup fc.entries.reverse k with
          | none => simp [hrs] at hrev
          | some w' => simp [hrs, List.find?, hdef, fileValLast, hf]
        | none =>
          have hdef : definesKey fs f k = false := by simp [definesKey, hf, hes]
          have hrev : (EnvMap.lookup fc.entries.reverse k).isSome = false := by
            rw [EnvMap.lookup_reverse_isSome]
            simp [hes]
          cases hrs : EnvMap.lookup fc.entries.reverse k with
          | some w' => simp [hrs] at hrev
          | none => simp [hrs, List.find?, hdef]

theorem mergeLoaded_eq_mergeEntries (outEnv loaded : EnvMap) :
    mergeLoaded outEnv loaded = mergeEntries false outEnv loaded := by
  unfold mergeLoaded mergeEntries
  exact List.foldl_ext _ _ outEnv (fun m kv _ => by simp [applyEntry])

theorem foldl_set_eq_mergeEntries_true (m l : EnvMap) :
    l.foldl (fun m kv => EnvMap.set m kv.1 kv.2) m = mergeEntries true m l := by
  unfold mergeEntries
  exact List.foldl_ext _ _ m (fun m kv _ => by simp [applyEntry])

theorem loadDotEnvFiles_env_of_not_overload (fs : FS) (amb : Option String)
    (bp : String) (opts : LoadDotEnvOptions) (hov : opts.overload.getD false = false) :
    (loadDotEnvFiles fs amb bp opts).env =
      (forwardPass fs (candidateFiles bp (effectiveNodeEnv opts.nodeEnv amb))).1 := by
  simp [loadDotEnvFiles, hov]

theorem loadDotEnvFiles_env_of_overload (fs : FS) (amb : Option String)
    (bp : String) (opts : LoadDotEnvOptions) (hov : opts.overload.getD false = true) :
    (loadDotEnvFiles fs amb bp opts).env =
      mergeEntries true
        (forwardPass fs (candidateFiles bp (effectiveNodeEnv opts.nodeEnv amb))).1
        (overloadPass fs (candidateFiles bp (effectiveNodeEnv opts.nodeEnv amb))) := by
  simp [loadDotEnvFiles, hov, foldl_set_eq_mergeEntries_true]

theorem loadDotEnvFiles_log_eq (fs : FS) (amb : Option String)
    (bp : String) (opts : LoadDotEnvOptions) :
    (loadDotEnvFiles fs amb bp opts).log =
      (forwardPass fs (candidateFiles bp (effectiveNodeEnv opts.nodeEnv amb))).2 := by
  simp [loadDotEnvFiles]

theorem jsOr_development_ne_empty (amb : Option String) :
    jsOr amb "development" ≠ "" := by
  cases amb with
  | none => simp [jsOr]
  | some t => by_cases ht : t = "" <;> simp [jsOr, ht]

theorem effectiveNodeEnv_ne_empty (optNe amb : Option String) :
    effectiveNodeEnv optNe amb ≠ "" := by
  cases optNe with
  | none => exact jsOr_development_ne_empty amb
  | some s =>
    by_cases hs : s = ""
    · simpa [effectiveNodeEnv, jsOr, hs] using jsOr_development_ne_empty amb
    · simp [effectiveNodeEnv, jsOr, hs]

theorem string_eq_empty_of_length_eq_zero (s : String) (h : s.length = 0) :
    s = "" := by
  cases s with
  | mk data =>
    cases data with
    | nil => rfl
    | cons c cs => simp [String.length] at h

theorem forwardStep_congr (fs fs' : FS) (acc : EnvMap × List (String × String))
    (f : String) (h : fs f = fs' f) :
    forwardStep fs acc f = forwardStep fs' acc f := by
  simp only [forwardStep, fileExists, config, h]

theorem overloadStep_congr (fs fs' : FS) (m : EnvMap) (f : String) (h : fs f = fs' f) :
    overloadStep fs m f = overloadStep fs' m f := by
  simp only [overloadStep, fileExists, config, h]

theorem foldl_forwardStep_congr (fs fs' : FS) (files : List String)
    (h : ∀ p ∈ files, fs p = fs' p) :
    ∀ acc, files.foldl (forwardStep fs) acc = files.foldl (forwardStep fs') acc := by
  induction files with
  | nil => intro acc; rfl
  | cons f rest ih =>
    intro acc
    rw [List.foldl_cons, List.foldl_cons, forwardStep_congr fs fs' acc f (h f (by simp))]
    exact ih (fun p hp => h p (by simp [hp])) _

theorem foldl_overloadStep_congr (fs fs' : FS) (files : List String)
    (h : ∀ p ∈ files, fs p = fs' p) :
    ∀ m, files.foldl (overloadStep fs) m = files.foldl (overloadStep fs') m := by
  induction files with
  | nil => intro m; rfl
  | cons f rest ih =>
    intro m
    rw [List.foldl_cons, List.foldl_cons, overloadStep_congr fs fs' m f (h f (by simp))]
    exact ih (fun p hp => h p (by simp [hp])) _

theorem loadDotEnvFiles_congr (fs fs' : FS) (amb : Option String) (bp : String)
    (opts : LoadDotEnvOptions)
    (h : ∀ p ∈ candidateFiles bp (effectiveNodeEnv opts.nodeEnv amb), fs p = fs' p) :
    loadDotEnvFiles fs amb bp opts = loadDotEnvFiles fs' amb bp opts := by
  simp only [loadDotEnvFiles, forwardPass, overloadPass]
  rw [foldl_forwardStep_congr fs fs' _ h,
    foldl_overloadStep_congr fs fs' _ (fun p hp => h p (List.mem_reverse.mp hp))]

theorem foldl_forwardStep_absent (fs : FS) (files : List String)
    (h : ∀ p ∈ files, fs p = none) :
    ∀ acc, files.foldl (forwardStep fs) acc = acc := by
  induction files with
  | nil => intro acc; rfl
  | cons f rest ih =>
    intro acc
    have hstep : forwardStep fs acc f = acc := by
      simp [forwardStep, fileExists, h f (by simp)]
    rw [List.foldl_cons, hstep]
    exact ih (fun p hp => h p (by simp [hp])) acc

theorem foldl_overloadStep_absent (fs : FS) (files : List String)
    (h : ∀ p ∈ files, fs p = none) :
    ∀ m, files.foldl (overloadStep fs) m = m := by
  induction files with
  | nil => intro m; rfl
  | cons f rest ih =>
    intro m
    have hstep : overloadStep fs m f = m := by
      simp [overloadStep, fileExists, h f (by simp)]
    rw [List.foldl_cons, hstep]
    exact ih (fun p hp => h p (by simp [hp])) m

theorem nodupKeys_foldl_overloadStep (fs : FS) (files : List String) :
    ∀ m, EnvMap.NodupKeys m → EnvMap.NodupKeys (files.foldl (overloadStep fs) m) := by
  induction files with
  | nil => intro m h; exact h
  | cons f rest ih =>
    intro m h
    rw [List.foldl_cons]
    apply ih
    rw [overloadStep_env]
    cases hf : fs f with
    | none => exact h
    | some fc => exact nodupKeys_mergeEntries true fc.entries m h

theorem nodupKeys_overloadPass (fs : FS) (files : List String) :
    EnvMap.NodupKeys (overloadPass fs files) := by
  exact nodupKeys_foldl_overloadStep fs files.reverse [] (by simp [EnvMap.NodupKeys, EnvMap.keys])

theorem forwardStep_log_of_err (fs : FS) (acc : EnvMap × List (String × String))
    (f : String) (fc : FileContent) (e : String)
    (hfc : fs f = some fc) (herr : fc.err = some e) (hne : e ≠ "MISSING_ENV_FILE") :
    (forwardStep fs acc f).2 = acc.2 ++ [(f, e)] := by
  simp [forwardStep, fileExists, hfc, config, herr, hne]

theorem forwardFold_log_mono (fs : FS) (files : List String) :
    ∀ acc, ∃ t, (files.foldl (forwardStep fs) acc).2 = acc.2 ++ t := by
  induction files with
  | nil => intro acc; exact ⟨[], by simp⟩
  | cons f rest ih =>
    intro acc
    rw [List.foldl_cons]
    rcases ih (forwardStep fs acc f) with ⟨t, ht⟩
    have hstep : ∃ t0, (forwardStep fs acc f).2 = acc.2 ++ t0 := by
      unfold forwardStep
      by_cases hex : fileExists fs f
      · simp only [hex, if_true]
        cases herr : (config fs f acc.1 false).error with
        | none => exact ⟨[], by simp⟩
        | some e =>
          by_cases he : e = "MISSING_ENV_FILE"
          · exact ⟨[], by simp [he]⟩
          · exact ⟨[(f, e)], by simp [he]⟩
      · simp only [hex, if_false]
        exact ⟨[], by simp⟩
    rcases hstep with ⟨t0, ht0⟩
    exact ⟨t0 ++ t, by rw [ht, ht0, List.append_assoc]⟩

theorem forwardFold_log_mem (fs : FS) (f e : String) (fc : FileContent)
    (hfc : fs f = some fc) (herr : fc.err = some e) (hne : e ≠ "MISSING_ENV_FILE") :
    ∀ files : List String, f ∈ files →
      ∀ acc, (f, e) ∈ (files.foldl (forwardStep fs) acc).2 := by
  intro files
  induction files with
  | nil => intro hmem; simp at hmem
  | cons g rest ih =>
    intro hmem acc
    rw [List.foldl_cons]
    rcases List.mem_cons.mp hmem with h1 | h2
    · subst h1
      rcases forwardFold_log_mono fs rest (forwardStep fs acc f) with ⟨t, ht⟩
      rw [ht, forwardStep_log_of_err fs acc f fc e hfc herr hne]
      simp
    · exact ih h2 (forwardStep fs acc g)

theorem forwardStep_env_entries_congr (fs fs' : FS) (f : String)
    (h : entriesOnly (fs f) = entriesOnly (fs' f))
    (acc acc' : EnvMap × List (String × String)) (henv : acc.1 = acc'.1) :
    (forwardStep fs acc f).1 = (forwardStep fs' acc' f).1 := by
  rw [forwardStep_env, forwardStep_env]
  cases hf : fs f with
  | none =>
    cases hf' : fs' f with
    | none => simpa using henv
    | some fc' =>
      rw [hf, hf'] at h
      simp [entriesOnly] at h
  | some fc =>
    cases hf' : fs' f with
    | none =>
      rw [hf, hf'] at h
      simp [entriesOnly] at h
    | some fc' =>
      rw [hf, hf'] at h
      simp [entriesOnly] at h
      simp [henv, h]

theorem forwardFold_env_entries_congr (fs fs' : FS)
    (hsame : ∀ p, entriesOnly (fs p) = entriesOnly (fs' p)) :
    ∀ (files : List String) (acc acc' : EnvMap × List (String × String)),
      acc.1 = acc'.1 →
      (files.foldl (forwardStep fs) acc).1 = (files.foldl (forwardStep fs') acc').1 := by
  intro files
  induction files with
  | nil => intro acc acc' henv; exact henv
  | cons f rest ih =>
    intro acc acc' henv
    rw [List.foldl_cons, List.foldl_cons]
    exact ih _ _ (forwardStep_env_entries_congr fs fs' f (hsame f) acc acc' henv)

theorem overloadFold_entries_congr (fs fs' : FS)
    (hsame : ∀ p, entriesOnly (fs p) = entriesOnly (fs' p)) :
    ∀ (files : List String) (m : EnvMap),
      files.foldl (overloadStep fs) m = files.foldl (overloadStep fs') m := by
  intro files
  induction files with
  | nil => intro m; rfl
  | cons f rest ih =>
    intro m
    rw [List.foldl_cons, List.foldl_cons]
    have hstep : overloadStep fs m f = overloadStep fs' m f := by
      rw [overloadStep_env, overloadStep_env]
      have h := hsame f
      cases hf : fs f with
      | none =>
        cases hf' : fs' f with
        | none => rfl
        | some fc' =>
          rw [hf, hf'] at h
          simp [entriesOnly] at h
      | some fc =>
        cases hf' : fs' f with
        | none =>
          rw [hf, hf'] at h
          simp [entriesOnly] at h
        | some fc' =>
          rw [hf, hf'] at h
          simp [entriesOnly] at h
          simp [h]
    rw [hstep]
    exact ih _

/-- C1: with `overload` false (or omitted), every key defined by at least
one existing candidate file resolves to the value of the
highest-precedence existing file that defines it (its first binding);
in particular this settles any key defined in more than one existing
candidate file. -/
theorem loadDotEnvFiles_highest_precedence_wins (fs : FS) (amb : Option String)
    (bp : String) (opts : LoadDotEnvOptions) (k f : String) (fc : FileContent)
    (hov : opts.overload.getD false = false)
    (hf : (candidateFiles bp (effectiveNodeEnv opts.nodeEnv amb)).find?
        (fun g => definesKey fs g k) = some f)
    (hfc : fs f = some fc) :
    EnvMap.lookup (loadDotEnvFiles fs amb bp opts).env k =
      EnvMap.lookup fc.entries k := by
  rw [loadDotEnvFiles_env_of_not_overload fs amb bp opts hov]
  unfold forwardPass
  rw [lookup_forwardFold]
  simp [EnvMap.lookup, hf, fileVal, hfc]

/-- Witness for C1: `.env.development` and `.env` both define `K`; the
resolved value is the `.env.development` one. -/
theorem loadDotEnvFiles_highest_precedence_wins_witness :
    (⟨none, none⟩ : LoadDotEnvOptions).overload.getD false = false ∧
    (candidateFiles "b" (effectiveNodeEnv (⟨none, none⟩ : LoadDotEnvOptions).nodeEnv none)).find?
        (fun g => definesKey fsTwoFiles g "K") = some "b/.env.development" ∧
    fsTwoFiles "b/.env.development" = some ⟨[("K", "hi")], none⟩ ∧
    EnvMap.lookup (loadDotEnvFiles fsTwoFiles none "b" ⟨none, none⟩).env "K" =
      EnvMap.lookup ([("K", "hi")] : EnvMap) "K" :=
  ⟨by decide, by decide, by decide,
    loadDotEnvFiles_highest_precedence_wins fsTwoFiles none "b" ⟨none, none⟩ "K"
      "b/.env.development" ⟨[("K", "hi")], none⟩ (by decide) (by decide) (by decide)⟩

/-- C5: when none of the four candidate files exists (which is also how a
missing or unreadable base directory presents), the result is the empty
mapping with an empty log; the embedding is total, so no error reaches
the caller. -/
theorem loadDotEnvFiles_no_files_empty (fs : FS) (amb : Option String)
    (bp : String) (opts : LoadDotEnvOptions)
    (h : ∀ p ∈ candidateFiles bp (effectiveNodeEnv opts.nodeEnv amb), fs p = none) :
    (loadDotEnvFiles fs amb bp opts).env = [] ∧
    (loadDotEnvFiles fs amb bp opts).log = [] := by
  simp only [loadDotEnvFiles, forwardPass, overloadPass]
  rw [foldl_forwardStep_absent fs _ h,
    foldl_overloadStep_absent fs _ (fun p hp => h p (List.mem_reverse.mp hp))]
  cases opts.overload.getD false <;> simp

/-- Witness for C5: an empty directory resolves to the empty mapping. -/
theorem loadDotEnvFiles_no_files_empty_witness :
    (∀ p ∈ candidateFiles "b" (effectiveNodeEnv (⟨none, none⟩ : LoadDotEnvOptions).nodeEnv none),
        fsEmpty p = none) ∧
    (loadDotEnvFiles fsEmpty none "b" ⟨none, none⟩).env = [] ∧
    (loadDotEnvFiles fsEmpty none "b" ⟨none, none⟩).log = [] :=
  ⟨fun p _ => rfl,
    (loadDotEnvFiles_no_files_empty fsEmpty none "b" ⟨none, none⟩ (fun p _ => rfl)).1,
    (loadDotEnvFiles_no_files_empty fsEmpty none "b" ⟨none, none⟩ (fun p _ => rfl)).2⟩

/-- C7: the effective runtime environment name is `options.nodeEnv` when
supplied (non-empty), else the ambient `NODE_ENV` when set (non-empty),
else `"development"`; and an omitted `overload` behaves as `false`, so by
default only the forward pass determines the result. -/
theorem effectiveNodeEnv_defaults (fs : FS) (amb : Option String) (bp : String)
    (s t : String) (hs : s ≠ "") (ht : t ≠ "") :
    effectiveNodeEnv (some s) amb = s ∧
    effectiveNodeEnv none (some t) = t ∧
    effectiveNodeEnv none none = "development" ∧
    (∀ ne : Option String,
      loadDotEnvFiles fs amb bp ⟨ne, none⟩ = loadDotEnvFiles fs amb bp ⟨ne, some false⟩) ∧
    (∀ ne : Option String,
      (loadDotEnvFiles fs amb bp ⟨ne, none⟩).env =
        (forwardPass fs (candidateFiles bp (effectiveNodeEnv ne amb))).1) := by
  refine ⟨by simp [effectiveNodeEnv, jsOr, hs], by simp [effectiveNodeEnv, jsOr, ht],
    rfl, fun ne => rfl, fun ne => ?_⟩
  exact loadDotEnvFiles_env_of_not_overload fs amb bp ⟨ne, none⟩ rfl

/-- Witness for C7 at `s = "production"`, `t = "test"`. -/
theorem effectiveNodeEnv_defaults_witness :
    ("production" : String) ≠ "" ∧ ("test" : String) ≠ "" ∧
    (effectiveNodeEnv (some "production") none = "production" ∧
      effectiveNodeEnv none (some "test") = "test" ∧
      effectiveNodeEnv none none = "development" ∧
      (∀ ne : Option String,
        loadDotEnvFiles fsEmpty none "b" ⟨ne, none⟩ =
          loadDotEnvFiles fsEmpty none "b" ⟨ne, some false⟩) ∧
      (∀ ne : Option String,
        (loadDotEnvFiles fsEmpty none "b" ⟨ne, none⟩).env =
          (forwardPass fsEmpty (candidateFiles "b" (effectiveNodeEnv ne none))).1)) :=
  ⟨by decide, by decide,
    effectiveNodeEnv_defaults fsEmpty none "b" "production" "test" (by decide) (by decide)⟩

/-- C10: an empty string for `options.nodeEnv` is falsy and falls back to
the ambient `NODE_ENV`; an empty ambient value falls back to
`"development"`; hence the effective environment segment is never empty
and the degenerate names `.env..local` (first candidate with empty
segment) and `.env.` (second candidate with empty segment) never occur,
nor is `.env.` ever a member of the candidate list. -/
theorem empty_nodeEnv_falls_back (amb optNe : Option String) (bp : String) :
    effectiveNodeEnv (some "") amb = effectiveNodeEnv none amb ∧
    effectiveNodeEnv none (some "") = "development" ∧
    effectiveNodeEnv optNe amb ≠ "" ∧
    bp ++ "/.env." ++ effectiveNodeEnv optNe amb ++ ".local" ≠ bp ++ "/.env..local" ∧
    bp ++ "/.env." ++ effectiveNodeEnv optNe amb ≠ bp ++ "/.env." ∧
    (bp ++ "/.env.") ∉ candidateFiles bp (effectiveNodeEnv optNe amb) := by
  have hne := effectiveNodeEnv_ne_empty optNe amb
  have hlen : (effectiveNodeEnv optNe amb).length ≠ 0 := by
    intro h0
    exact hne (string_eq_empty_of_length_eq_zero _ h0)
  have l1 : ("/.env." : String).length = 6 := rfl
  have l2 : (".local" : String).length = 6 := rfl
  have l3 : ("/.env..local" : String).length = 12 := rfl
  have l4 : ("/.env.local" : String).length = 11 := rfl
  have l5 : ("/.env" : String).length = 5 := rfl
  refine ⟨by simp [effectiveNodeEnv, jsOr], rfl, hne, ?_, ?_, ?_⟩
  · intro h
    have hl := congrArg String.length h
    simp only [String.length_append, l1, l2, l3] at hl
    omega
  · intro h
    have hl := congrArg String.length h
    simp only [String.length_append, l1] at hl
    omega
  · intro hmem
    simp only [candidateFiles, List.mem_cons, List.not_mem_nil, or_false] at hmem
    rcases hmem with h | h | h | h
    · have hl := congrArg String.length h
      simp only [String.length_append, l1, l2] at hl
      omega
    · have hl := congrArg String.length h
      simp only [String.length_append, l1] at hl
      omega
    · have hl := congrArg String.length h
      simp only [String.length_append, l1, l4] at hl
      omega
    · have hl := congrArg String.length h
      simp only [String.length_append, l1, l5] at hl
      omega

/-- Witness for C10 at `amb := none`, `optNe := none`, `bp := "b"`. -/
theorem empty_nodeEnv_falls_back_witness :
    effectiveNodeEnv (some "") none = effectiveNodeEnv none none ∧
    effectiveNodeEnv none (some "") = "development" ∧
    effectiveNodeEnv none none ≠ "" ∧
    "b" ++ "/.env." ++ effectiveNodeEnv none none ++ ".local" ≠ "b" ++ "/.env..local" ∧
    "b" ++ "/.env." ++ effectiveNodeEnv none none ≠ "b" ++ "/.env." ∧
    ("b" ++ "/.env.") ∉ candidateFiles "b" (effectiveNodeEnv none none) :=
  empty_nodeEnv_falls_back none none "b"

/-- C3: the candidate list is exactly the four paths, in the fixed
precedence order, and the resolution consults the filesystem at no other
path: two filesystems agreeing on the four candidates produce identical
results, for every option value. -/
theorem candidateFiles_fixed_and_complete (bp e : String) :
    candidateFiles bp e =
      [bp ++ "/.env." ++ e ++ ".local", bp ++ "/.env." ++ e,
       bp ++ "/.env.local", bp ++ "/.env"] ∧
    ∀ (fs fs' : FS) (amb : Option String) (opts : LoadDotEnvOptions),
      (∀ p ∈ candidateFiles bp (effectiveNodeEnv opts.nodeEnv amb), fs p = fs' p) →
      loadDotEnvFiles fs amb bp opts = loadDotEnvFiles fs' amb bp opts :=
  ⟨rfl, fun fs fs' amb opts h => loadDotEnvFiles_congr fs fs' amb bp opts h⟩

/-- Witness for C3: the list at `bp = "b"`, `e = "development"`, and
agreement of two concrete filesystems on the candidates. -/
theorem candidateFiles_fixed_and_complete_witness :
    candidateFiles "b" "development" =
      ["b" ++ "/.env." ++ "development" ++ ".local", "b" ++ "/.env." ++ "development",
       "b" ++ "/.env.local", "b" ++ "/.env"] ∧
    loadDotEnvFiles fsTwoFiles none "b" ⟨none, none⟩ =
      loadDotEnvFiles fsTwoFiles none "b" ⟨none, none⟩ :=
  ⟨(candidateFiles_fixed_and_complete "b" "development").1,
    (candidateFiles_fixed_and_complete "b" "development").2 fsTwoFiles fsTwoFiles none
      ⟨none, none⟩ (fun p _ => rfl)⟩

theorem lookup_mergeLoaded_of_contains (outEnv loaded : EnvMap) (k : String)
    (h : EnvMap.contains outEnv k = true) :
    EnvMap.lookup (mergeLoaded outEnv loaded) k = EnvMap.lookup outEnv k := by
  rw [mergeLoaded_eq_mergeEntries, lookup_mergeEntries_false]
  simp [h]

theorem lookup_setDefaultNodeEnv_of_contains (env : EnvMap) (ne k : String)
    (h : EnvMap.contains env k = true) :
    EnvMap.lookup (setDefaultNodeEnv env ne) k = EnvMap.lookup env k := by
  unfold setDefaultNodeEnv
  by_cases hnd : EnvMap.contains env "NODE_ENV" = true
  · simp [hnd]
  · have hk : k ≠ "NODE_ENV" := by
      intro hh
      rw [hh] at h
      exact hnd h
    simp only [hnd, if_false, Bool.false_eq_true]
    exact EnvMap.lookup_set_ne env "NODE_ENV" ne k hk

theorem hook_env_preserves (outEnv L : EnvMap) (ne : String) :
    (∀ k, EnvMap.contains outEnv k = true →
      EnvMap.lookup (setDefaultNodeEnv (mergeLoaded outEnv L) ne) k =
        EnvMap.lookup outEnv k) ∧
    (∃ tail, setDefaultNodeEnv (mergeLoaded outEnv L) ne = outEnv ++ tail) := by
  constructor
  · intro k hk
    have hlm := lookup_mergeLoaded_of_contains outEnv L k hk
    have hcm : EnvMap.contains (mergeLoaded outEnv L) k = true := by
      unfold EnvMap.contains at hk ⊢
      rw [hlm]
      exact hk
    rw [lookup_setDefaultNodeEnv_of_contains _ ne k hcm, hlm]
  · rcases mergeEntries_false_append L outEnv with ⟨t, ht⟩
    have hml : mergeLoaded outEnv L = outEnv ++ t := by
      rw [mergeLoaded_eq_mergeEntries, ht]
    unfold setDefaultNodeEnv
    by_cases hnd : EnvMap.contains (mergeLoaded outEnv L) "NODE_ENV" = true
    · exact ⟨t, by rw [if_pos hnd, hml]⟩
    · refine ⟨t ++ [("NODE_ENV", ne)], ?_⟩
      rw [if_neg (by simpa using hnd),
        EnvMap.set_eq_append_of_contains_eq_false _ _ _ (by simpa using hnd), hml,
        List.append_assoc]

/-- C4: the `shell.env` hook never changes or removes a key the output
environment already has — it only appends new pairs after the existing
ones (the extensional content of mutating the object in place) — and the
hook's merge loop sends `{FOO: existing}` joined with loaded
`{FOO: loaded, BAR: baz}` to `{FOO: existing, BAR: baz}`. -/
theorem shellEnvHook_non_override (fs : FS) (amb : Option String) (dir : String)
    (input : ShellEnvInput) (output : ShellEnvOutput) :
    (∀ k, EnvMap.contains output.env k = true →
      EnvMap.lookup (shellEnvHook fs amb dir input output).env k =
        EnvMap.lookup output.env k) ∧
    (∃ tail, (shellEnvHook fs amb dir input output).env = output.env ++ tail) ∧
    mergeLoaded [("FOO", "existing")] [("FOO", "loaded"), ("BAR", "baz")] =
      [("FOO", "existing"), ("BAR", "baz")] := by
  refine ⟨fun k hk => ?_, ?_, by decide⟩
  · exact (hook_env_preserves output.env
      (loadDotEnvFiles fs amb (input.cwd.getD dir)
        ⟨some (jsOr amb "development"), none⟩).env
      (jsOr amb "development")).1 k hk
  · exact (hook_env_preserves output.env
      (loadDotEnvFiles fs amb (input.cwd.getD dir)
        ⟨some (jsOr amb "development"), none⟩).env
      (jsOr amb "development")).2

/-- Witness for C4: a pre-populated `FOO` survives the hook unchanged on
a concrete directory whose `.env` also defines `FOO`. -/
theorem shellEnvHook_non_override_witness :
    EnvMap.contains ([("FOO", "existing")] : EnvMap) "FOO" = true ∧
    EnvMap.lookup (shellEnvHook fsFooBar none "b" ⟨none⟩ ⟨[("FOO", "existing")]⟩).env "FOO" =
      EnvMap.lookup ([("FOO", "existing")] : EnvMap) "FOO" :=
  ⟨by decide,
    (shellEnvHook_non_override fsFooBar none "b" ⟨none⟩ ⟨[("FOO", "existing")]⟩).1
      "FOO" (by decide)⟩

/-- C9: the hook calls `loadDotEnvFiles` with `{ nodeEnv }` and no
`overload` key, so host-integrated resolution is always the forward
(first-wins) pass: the hook's result is literally the forward pass merged
non-destructively into the output, with `NODE_ENV` defaulted. -/
theorem shellEnvHook_always_forward_only (fs : FS) (amb : Option String)
    (dir : String) (input : ShellEnvInput) (output : ShellEnvOutput) :
    shellEnvHook fs amb dir input output =
      ⟨setDefaultNodeEnv
        (mergeLoaded output.env
          (forwardPass fs
            (candidateFiles (input.cwd.getD dir) (jsOr amb "development"))).1)
        (jsOr amb "development")⟩ := by
  have hne := jsOr_development_ne_empty amb
  have henv : effectiveNodeEnv (some (jsOr amb "development")) amb =
      jsOr amb "development" := by
    simp [effectiveNodeEnv, jsOr, hne]
  simp only [shellEnvHook]
  rw [loadDotEnvFiles_env_of_not_overload fs amb (input.cwd.getD dir)
    ⟨some (jsOr amb "development"), none⟩ rfl]
  rw [henv]

/-- Witness for C9 at a concrete directory and output. -/
theorem shellEnvHook_always_forward_only_witness :
    shellEnvHook fsTwoFiles none "b" ⟨none⟩ ⟨[]⟩ =
      ⟨setDefaultNodeEnv
        (mergeLoaded ([] : EnvMap)
          (forwardPass fsTwoFiles
            (candidateFiles ((none : Option String).getD "b") (jsOr none "development"))).1)
        (jsOr none "development")⟩ :=
  shellEnvHook_always_forward_only fsTwoFiles none "b" ⟨none⟩ ⟨[]⟩

/-- C8: after the hook, `NODE_ENV` equals the effective runtime
environment name when neither the output environment nor the loaded
mapping supplied it, and a pre-existing `NODE_ENV` value is unchanged. -/
theorem shellEnvHook_node_env_default (fs : FS) (amb : Option String)
    (dir : String) (input : ShellEnvInput) (output : ShellEnvOutput) :
    (EnvMap.contains output.env "NODE_ENV" = false →
      EnvMap.contains (loadDotEnvFiles fs amb (input.cwd.getD dir)
          ⟨some (jsOr amb "development"), none⟩).env "NODE_ENV" = false →
      EnvMap.lookup (shellEnvHook fs amb dir input output).env "NODE_ENV" =
        some (jsOr amb "development")) ∧
    (∀ v, EnvMap.lookup output.env "NODE_ENV" = some v →
      EnvMap.lookup (shellEnvHook fs amb dir input output).env "NODE_ENV" = some v) := by
  constructor
  · intro hout hload
    show EnvMap.lookup (setDefaultNodeEnv (mergeLoaded output.env _) _) "NODE_ENV" = _
    rw [mergeLoaded_eq_mergeEntries]
    have hmerged : EnvMap.lookup
        (mergeEntries false output.env
          (loadDotEnvFiles fs amb (input.cwd.getD dir)
            ⟨some (jsOr amb "development"), none⟩).env) "NODE_ENV" = none := by
      rw [lookup_mergeEntries_false]
      rw [if_neg (by simp [hout])]
      exact EnvMap.lookup_eq_none_of_contains_eq_false _ _ hload
    unfold setDefaultNodeEnv
    rw [if_neg (by simp [EnvMap.contains, hmerged])]
    exact EnvMap.lookup_set_self _ _ _
  · intro v hv
    have hk : EnvMap.contains output.env "NODE_ENV" = true := by
      simp [EnvMap.contains, hv]
    have := (hook_env_preserves output.env
      (loadDotEnvFiles fs amb (input.cwd.getD dir)
        ⟨some (jsOr amb "development"), none⟩).env
      (jsOr amb "development")).1 "NODE_ENV" hk
    exact this.trans hv

/-- Witness for C8: empty directory, empty output — `NODE_ENV` is set to
`development`. -/
theorem shellEnvHook_node_env_default_witness :
    EnvMap.contains ([] : EnvMap) "NODE_ENV" = false ∧
    EnvMap.contains (loadDotEnvFiles fsEmpty none ((none : Option String).getD "b")
        ⟨some (jsOr none "development"), none⟩).env "NODE_ENV" = false ∧
    EnvMap.lookup (shellEnvHook fsEmpty none "b" ⟨none⟩ ⟨[]⟩).env "NODE_ENV" =
      some (jsOr none "development") :=
  ⟨by decide, by decide,
    (shellEnvHook_node_env_default fsEmpty none "b" ⟨none⟩ ⟨[]⟩).1 (by decide) (by decide)⟩

/-- C2: with `overload` true, every key of the reverse destructive pass
overwrites the primary result unconditionally, and a key defined in both
`.env` and `.env.<env>.local` (both existing) resolves to the
`.env.<env>.local` value (its last binding, which the destructive merge
keeps). -/
theorem loadDotEnvFiles_overload_semantics (fs : FS) (amb : Option String)
    (bp : String) (opts : LoadDotEnvOptions) (k : String) (fc1 fc4 : FileContent)
    (hov : opts.overload = some true)
    (hf1 : fs (bp ++ "/.env." ++ effectiveNodeEnv opts.nodeEnv amb ++ ".local") = some fc1)
    (hk1 : (EnvMap.lookup fc1.entries k).isSome = true)
    (hf4 : fs (bp ++ "/.env") = some fc4)
    (hk4 : (EnvMap.lookup fc4.entries k).isSome = true) :
    (∀ k', EnvMap.contains (overloadPass fs
        (candidateFiles bp (effectiveNodeEnv opts.nodeEnv amb))) k' = true →
      EnvMap.lookup (loadDotEnvFiles fs amb bp opts).env k' =
        EnvMap.lookup (overloadPass fs
          (candidateFiles bp (effectiveNodeEnv opts.nodeEnv amb))) k') ∧
    EnvMap.lookup (loadDotEnvFiles fs amb bp opts).env k =
      EnvMap.lookup fc1.entries.reverse k := by
  have hovd : opts.overload.getD false = true := by rw [hov]; rfl
  have hnodup := nodupKeys_overloadPass fs
    (candidateFiles bp (effectiveNodeEnv opts.nodeEnv amb))
  constructor
  · intro k' hk'
    rw [loadDotEnvFiles_env_of_overload fs amb bp opts hovd, lookup_mergeEntries_true,
      EnvMap.lookup_reverse_of_nodup _ _ hnodup]
    cases hs : EnvMap.lookup (overloadPass fs
        (candidateFiles bp (effectiveNodeEnv opts.nodeEnv amb))) k' with
    | none => simp [EnvMap.contains, hs] at hk'
    | some v => simp [hs]
  · rw [loadDotEnvFiles_env_of_overload fs amb bp opts hovd, lookup_mergeEntries_true,
      EnvMap.lookup_reverse_of_nodup _ _ hnodup]
    have hdef : definesKey fs
        (bp ++ "/.env." ++ effectiveNodeEnv opts.nodeEnv amb ++ ".local") k = true := by
      simp [definesKey, hf1, hk1]
    have hfind : List.find? (fun g => definesKey fs g k)
        (candidateFiles bp (effectiveNodeEnv opts.nodeEnv amb)) =
        some (bp ++ "/.env." ++ effectiveNodeEnv opts.nodeEnv amb ++ ".local") := by
      simp only [candidateFiles]
      rw [List.find?_cons_of_pos]
      exact hdef
    have hovl : EnvMap.lookup (overloadPass fs
        (candidateFiles bp (effectiveNodeEnv opts.nodeEnv amb))) k =
        EnvMap.lookup fc1.entries.reverse k := by
      unfold overloadPass
      rw [lookup_overloadFold, List.reverse_reverse, hfind]
      simp [fileValLast, hf1]
    rw [hovl]
    have hsome : (EnvMap.lookup fc1.entries.reverse k).isSome = true := by
      rw [EnvMap.lookup_reverse_isSome]
      exact hk1
    cases hs : EnvMap.lookup fc1.entries.reverse k with
    | none => rw [hs] at hsome; simp at hsome
    | some v => simp [hs]

/-- Witness for C2: `.env.development.local` has `K=top`, `.env` has
`K=lo`; under `overload = true` the result keeps `top`. -/
theorem loadDotEnvFiles_overload_semantics_witness :
    (⟨none, some true⟩ : LoadDotEnvOptions).overload = some true ∧
    fsTopAndBottom ("b" ++ "/.env." ++ effectiveNodeEnv none none ++ ".local") =
      some ⟨[("K", "top")], none⟩ ∧
    (EnvMap.lookup ([("K", "top")] : EnvMap) "K").isSome = true ∧
    fsTopAndBottom ("b" ++ "/.env") = some ⟨[("K", "lo")], none⟩ ∧
    (EnvMap.lookup ([("K", "lo")] : EnvMap) "K").isSome = true ∧
    ((∀ k', EnvMap.contains (overloadPass fsTopAndBottom
        (candidateFiles "b" (effectiveNodeEnv none none))) k' = true →
      EnvMap.lookup (loadDotEnvFiles fsTopAndBottom none "b" ⟨none, some true⟩).env k' =
        EnvMap.lookup (overloadPass fsTopAndBottom
          (candidateFiles "b" (effectiveNodeEnv none none))) k') ∧
    EnvMap.lookup (loadDotEnvFiles fsTopAndBottom none "b" ⟨none, some true⟩).env "K" =
      EnvMap.lookup ([("K", "top")] : EnvMap).reverse "K") :=
  ⟨rfl, by decide, by decide, by decide, by decide,
    loadDotEnvFiles_overload_semantics fsTopAndBottom none "b" ⟨none, some true⟩ "K"
      ⟨[("K", "top")], none⟩ ⟨[("K", "lo")], none⟩ rfl (by decide) (by decide)
      (by decide) (by decide)⟩

/-- C6: a candidate file whose parse reports an error other than
`MISSING_ENV_FILE` gets that error logged with its file identity, and the
error report has no effect on the resolved mapping: a filesystem with the
same parsed entries everywhere (errors erased or changed) resolves to the
same mapping, so neither already-merged nor not-yet-processed files are
affected. -/
theorem loadDotEnvFiles_logs_and_continues (fs fs' : FS) (amb : Option String)
    (bp : String) (opts : LoadDotEnvOptions) (f e : String) (fc : FileContent)
    (hmem : f ∈ candidateFiles bp (effectiveNodeEnv opts.nodeEnv amb))
    (hfc : fs f = some fc) (herr : fc.err = some e) (hne : e ≠ "MISSING_ENV_FILE")
    (hsame : ∀ p, entriesOnly (fs p) = entriesOnly (fs' p)) :
    (f, e) ∈ (loadDotEnvFiles fs amb bp opts).log ∧
    (loadDotEnvFiles fs amb bp opts).env = (loadDotEnvFiles fs' amb bp opts).env := by
  constructor
  · rw [loadDotEnvFiles_log_eq]
    unfold forwardPass
    exact forwardFold_log_mem fs f e fc hfc herr hne _ hmem ([], [])
  · by_cases hov : opts.overload.getD false = true
    · rw [loadDotEnvFiles_env_of_overload fs amb bp opts hov,
        loadDotEnvFiles_env_of_overload fs' amb bp opts hov]
      have hfwd : (forwardPass fs
          (candidateFiles bp (effectiveNodeEnv opts.nodeEnv amb))).1 =
          (forwardPass fs' (candidateFiles bp (effectiveNodeEnv opts.nodeEnv amb))).1 :=
        forwardFold_env_entries_congr fs fs' hsame _ ([], []) ([], []) rfl
      have hovl : overloadPass fs
          (candidateFiles bp (effectiveNodeEnv opts.nodeEnv amb)) =
          overloadPass fs' (candidateFiles bp (effectiveNodeEnv opts.nodeEnv amb)) := by
        unfold overloadPass
        exact overloadFold_entries_congr fs fs' hsame _ []
      rw [hfwd, hovl]
    · have hov' : opts.overload.getD false = false := by
        cases h : opts.overload.getD false
        · rfl
        · exact absurd h hov
      rw [loadDotEnvFiles_env_of_not_overload fs amb bp opts hov',
        loadDotEnvFiles_env_of_not_overload fs' amb bp opts hov']
      exact forwardFold_env_entries_congr fs fs' hsame _ ([], []) ([], []) rfl

/-- Witness for C6: `.env` reports `DECRYPT_FAILED`; the pair is logged
and the resolved mapping equals the one from the healed filesystem. -/
theorem loadDotEnvFiles_logs_and_continues_witness :
    ("b/.env" : String) ∈ candidateFiles "b"
      (effectiveNodeEnv (⟨none, none⟩ : LoadDotEnvOptions).nodeEnv none) ∧
    fsBadFile "b/.env" = some ⟨[("A", "1")], some "DECRYPT_FAILED"⟩ ∧
    (⟨[("A", "1")], some "DECRYPT_FAILED"⟩ : FileContent).err = some "DECRYPT_FAILED" ∧
    ("DECRYPT_FAILED" : String) ≠ "MISSING_ENV_FILE" ∧
    (∀ p, entriesOnly (fsBadFile p) = entriesOnly (fsBadFileHealed p)) ∧
    (("b/.env", "DECRYPT_FAILED") ∈ (loadDotEnvFiles fsBadFile none "b" ⟨none, none⟩).log ∧
      (loadDotEnvFiles fsBadFile none "b" ⟨none, none⟩).env =
        (loadDotEnvFiles fsBadFileHealed none "b" ⟨none, none⟩).env) := by
  have hsame : ∀ p, entriesOnly (fsBadFile p) = entriesOnly (fsBadFileHealed p) := by
    intro p
    by_cases hp : p = "b/.env" <;> simp [fsBadFile, fsBadFileHealed, entriesOnly, hp]
  exact ⟨by decide, by decide, rfl, by decide, hsame,
    loadDotEnvFiles_logs_and_continues fsBadFile fsBadFileHealed none "b" ⟨none, none⟩
      "b/.env" "DECRYPT_FAILED" ⟨[("A", "1")], some "DECRYPT_FAILED"⟩
      (by decide) (by decide) rfl (by decide) hsame⟩
